import Mathlib

/-!
Verification of the alignment-and-classification engine of the
`excel-difference` repository (`src/excel_difference/excel_diff.py`).

The Python functions are shallowly embedded as executable Lean
definitions over an explicit cell-value type.  Python floats are
modelled as rationals (`Rat`); Python exceptions are modelled with
`Except String`.  Each embedded definition carries a doc comment naming
the source function it translates.
-/

namespace ExcelDiff

instance {ε α : Type} [DecidableEq ε] [DecidableEq α] : DecidableEq (Except ε α)
  | .error a, .error b =>
    if h : a = b then .isTrue (congrArg Except.error h)
    else .isFalse fun hc => h (Except.error.inj hc)
  | .error _, .ok _ => .isFalse fun hc => Except.noConfusion hc
  | .ok _, .error _ => .isFalse fun hc => Except.noConfusion hc
  | .ok a, .ok b =>
    if h : a = b then .isTrue (congrArg Except.ok h)
    else .isFalse fun hc => h (Except.ok.inj hc)

/-!
The `Rat` arithmetic of Batteries (`Rat.add`, `Rat.sub`, `Rat.mul`,
`Rat.inv`) is marked irreducible, which blocks `decide`-style
evaluation.  The embedded code therefore computes with the following
`mkRat`-based helpers; the bridge lemmas right after each one show it
agrees with the standard field operation, and the claim theorems are
stated with the standard operations.
-/

/-- Subtraction on `Rat`, evaluable by the kernel. -/
def ratSub (a b : Rat) : Rat :=
  mkRat (a.num * (b.den : Int) - b.num * (a.den : Int)) (a.den * b.den)

/-- Multiplication on `Rat`, evaluable by the kernel. -/
def ratMul (a b : Rat) : Rat := mkRat (a.num * b.num) (a.den * b.den)

/-- Division on `Rat`, evaluable by the kernel. -/
def ratDiv (a b : Rat) : Rat :=
  mkRat (a.num * (b.den : Int) * (if b.num < 0 then -1 else 1)) (a.den * b.num.natAbs)

/-- The power `10 ^ k` as a rational, evaluable by the kernel. -/
def pow10 (k : Nat) : Rat := mkRat ((10 : Nat) ^ k : Nat) 1

/-- A raw spreadsheet cell value as seen by the Python code: `None`
(absent), an `int`, a `float` (modelled as an exact rational), a `str`,
or a `bool`.  Float NaN/infinity payloads are outside the model. -/
inductive Value where
  | none
  | int (n : Int)
  | float (q : Rat)
  | str (s : String)
  | bool (b : Bool)
deriving DecidableEq, Repr

/-- Embeds `pd.isna` on scalar cell values: true exactly for `None`
(the model has no float-NaN value). -/
def pd_isna : Value → Bool
  | .none => true
  | _ => false

/-- Python truthiness `bool(value)` of a cell value: `None`, `0`, `0.0`,
`""` and `False` are falsy, everything else is truthy. -/
def truthy : Value → Bool
  | .none => false
  | .int n => n ≠ 0
  | .float q => q ≠ 0
  | .str s => s ≠ ""
  | .bool b => b

/-- The ASCII whitespace characters recognised by Python's `str.strip`,
`str.split` and the regex class `\s`. -/
def isSpace (c : Char) : Bool :=
  c = ' ' || c = '\t' || c = '\n' || c = '\r' || c = '\x0b' || c = '\x0c'

/-- Embeds Python `str.strip()`: drop leading and trailing whitespace. -/
def stripChars (l : List Char) : List Char :=
  ((l.dropWhile isSpace).reverse.dropWhile isSpace).reverse

/-- Helper for `collapseWs`; the flag records whether the previous
character was whitespace (so the run emits only one space). -/
def collapseWsAux : Bool → List Char → List Char
  | _, [] => []
  | prevWs, c :: rest =>
    if isSpace c then
      if prevWs then collapseWsAux true rest
      else ' ' :: collapseWsAux true rest
    else c :: collapseWsAux false rest

/-- Embeds `re.sub(r"\s+", " ", s)`: every maximal run of whitespace
becomes a single space. -/
def collapseWs (l : List Char) : List Char := collapseWsAux false l

/-- Numeric value of a list of decimal digit characters. -/
def digitsVal (l : List Char) : Nat :=
  l.foldl (fun a c => 10 * a + (c.toNat - '0'.toNat)) 0

/-- Parses the optional exponent suffix accepted by Python `float()`
(`e`/`E`, optional sign, digits); `[]` means exponent `0`.  Returns
`none` when the remainder is not a well-formed exponent. -/
def parseExp? : List Char → Option Int
  | [] => some 0
  | c :: rest =>
    if c = 'e' ∨ c = 'E' then
      let p : Int × List Char :=
        match rest with
        | '+' :: r => (1, r)
        | '-' :: r => (-1, r)
        | r => (1, r)
      let ds := p.2.takeWhile Char.isDigit
      let r3 := p.2.dropWhile Char.isDigit
      if ds = [] ∨ r3 ≠ [] then Option.none
      else some (p.1 * (digitsVal ds : Int))
    else Option.none

/-- Scales a rational by `10 ^ e` for a signed exponent `e`. -/
def applyExp (q : Rat) (e : Int) : Rat :=
  if 0 ≤ e then ratMul q (pow10 e.toNat) else ratDiv q (pow10 (-e).toNat)

/-- Parses an unsigned float literal: digits with an optional fractional
part (at least one digit overall) followed by an optional exponent.  The
mantissa `ip.fp` is read as the integer `ip ++ fp` over `10 ^ |fp|`. -/
def parseUnsigned? (l : List Char) : Option Rat :=
  let ip := l.takeWhile Char.isDigit
  let r1 := l.dropWhile Char.isDigit
  match r1 with
  | '.' :: r2 =>
    let fp := r2.takeWhile Char.isDigit
    let r3 := r2.dropWhile Char.isDigit
    if ip = [] ∧ fp = [] then Option.none
    else (parseExp? r3).map fun e =>
      applyExp (mkRat (digitsVal (ip ++ fp) : Int) ((10 : Nat) ^ fp.length)) e
  | r =>
    if ip = [] then Option.none
    else (parseExp? r).map fun e => applyExp (mkRat (digitsVal ip : Int) 1) e

/-- Embeds Python `float(s)` on strings: surrounding whitespace is
stripped, then an optional sign and a decimal literal with optional
exponent are read.  The `inf`/`nan` spellings and digit-group
underscores accepted by CPython are outside the model (they never occur
in this development). -/
def parseFloat? (s : String) : Option Rat :=
  match stripChars s.data with
  | '+' :: r => parseUnsigned? r
  | '-' :: r => (parseUnsigned? r).map Neg.neg
  | r => parseUnsigned? r

/-- Embeds Python `float(value)` on cell values: fails on `None`,
converts ints, floats and bools, parses strings. -/
def pyFloat? : Value → Option Rat
  | .none => Option.none
  | .int n => some (n : Rat)
  | .float q => some q
  | .bool b => some (if b then 1 else 0)
  | .str s => parseFloat? s

/-- Embeds `is_numeric` (excel_diff.py lines 10-18): false for absent
values, otherwise whether `float(value)` succeeds. -/
def is_numeric (v : Value) : Bool :=
  if pd_isna v then false else (pyFloat? v).isSome

/-- Decimal rendering of a rational whose denominator divides a power of
ten, mirroring Python `str()` on the floats this development touches
(`5.0 ↦ "5.0"`, `101/10 ↦ "10.1"`).  Python's scientific notation for
extreme magnitudes is outside the model. -/
def ratDecimalStr (q : Rat) : String :=
  match (List.range 61).find? (fun k => (10 : Nat) ^ k % q.den == 0) with
  | some k =>
    let n : Int := q.num * (((10 : Nat) ^ k / q.den : Nat) : Int)
    let s := toString n.natAbs
    let ds := s.data
    let ds := if ds.length ≤ k then List.replicate (k + 1 - ds.length) '0' ++ ds else ds
    let ipart := String.mk (ds.take (ds.length - k))
    let fpart := String.mk (ds.drop (ds.length - k))
    (if n < 0 then "-" else "") ++ ipart ++ "." ++ (if k = 0 then "0" else fpart)
  | Option.none => toString q.num ++ "/" ++ toString q.den

/-- Embeds Python `str(value)` on cell values. -/
def toStr : Value → String
  | .none => "None"
  | .int n => toString n
  | .float q => ratDecimalStr q
  | .str s => s
  | .bool b => if b then "True" else "False"

/-- Embeds `normalize_text` (excel_diff.py lines 21-25): absent values
give `""`; otherwise `str` conversion, strip, whitespace collapse, and
lower-casing. -/
def normalize_text (v : Value) : String :=
  if pd_isna v then ""
  else String.mk ((collapseWs (stripChars (toStr v).data)).map Char.toLower)

/-- Helper for `splitWs`: the accumulator holds the reversed current
token. -/
def splitWsAux : List Char → List Char → List String
  | [], acc => if acc = [] then [] else [String.mk acc.reverse]
  | c :: rest, acc =>
    if isSpace c then
      if acc = [] then splitWsAux rest []
      else String.mk acc.reverse :: splitWsAux rest []
    else splitWsAux rest (c :: acc)

/-- Embeds Python `str.split()` with no separator: split on whitespace
runs, dropping empty tokens. -/
def splitWs (l : List Char) : List String := splitWsAux l []

/-- The set of word tokens of a text, as used by `calculate_similarity`
(`set(text.split())`). -/
def wordSet (s : String) : Finset String := (splitWs s.data).toFinset

/-- Embeds `calculate_similarity` (excel_diff.py lines 180-197).  Note
the leading guard: if either text is empty the result is `0`, so the
later both-word-sets-empty branch returning `1` is reachable only for
whitespace-only nonempty texts. -/
def calculate_similarity (text1 text2 : String) : Rat :=
  if text1 = "" ∨ text2 = "" then 0
  else
    let words1 := wordSet text1
    let words2 := wordSet text2
    if words1 = ∅ ∧ words2 = ∅ then 1
    else if words1 = ∅ ∨ words2 = ∅ then 0
    else ratDiv ((words1 ∩ words2).card : Rat) ((words1 ∪ words2).card : Rat)

/-- Python unary minus on a cell value: negates ints, floats and bools
(`-True == -1`); raises `TypeError` on strings and `None`. -/
def pyNeg : Value → Except String Value
  | .int n => .ok (.int (-n))
  | .float q => .ok (.float (-q))
  | .bool b => .ok (.int (if b then -1 else 0))
  | .str _ => .error "TypeError: bad operand type for unary minus: str"
  | .none => .error "TypeError: bad operand type for unary minus: NoneType"

/-- Embeds `compare_cells` (excel_diff.py lines 200-226).  The
`value1 is not None` guard of line 220 is dead at that point (absent
values were handled earlier), so the text branch stringifies directly.
The only-B-absent branch evaluates Python `-value1`, which raises when
`value1` is a numeric string. -/
def compare_cells (value1 value2 : Value) : Except String Value :=
  if pd_isna value1 && pd_isna value2 then .ok (.float 0)
  else if pd_isna value1 then
    .ok (if is_numeric value2 then value2 else .str (toStr value2))
  else if pd_isna value2 then
    if is_numeric value1 then pyNeg value1
    else .ok (.str (toStr value1 ++ " <--> "))
  else if is_numeric value1 && is_numeric value2 then
    .ok (.float (ratSub ((pyFloat? value2).getD 0) ((pyFloat? value1).getD 0)))
  else
    let str1 := toStr value1
    let str2 := toStr value2
    if str1 = str2 then .ok (.str str1)
    else .ok (.str (str1 ++ " <--> " ++ str2))

/-- The three fill colors used by `get_cell_color`. -/
inductive Fill where
  | lightGreen
  | lightRed
  | lightOrange
deriving DecidableEq, Repr

/-- The numeric three-way bucketing of `get_cell_color` (lines 234-246):
green for zero, red above absolute difference 100, orange otherwise. -/
def numFill (q : Rat) : Fill :=
  if q = 0 then .lightGreen else if 100 < |q| then .lightRed else .lightOrange

/-- Whether `needle` occurs as a contiguous sublist of the second
argument; embeds Python's `in` on strings. -/
def containsSub (needle : List Char) : List Char → Bool
  | [] => needle.isEmpty
  | c :: rest => needle.isPrefixOf (c :: rest) || containsSub needle rest

/-- Embeds `get_cell_color` (excel_diff.py lines 229-252).  Python
`isinstance(v, (int, float))` also covers bools (`bool` subclasses
`int`), so they take the numeric branch. -/
def get_cell_color : Value → Option Fill
  | .none => Option.none
  | .int n => some (numFill (n : Rat))
  | .float q => some (numFill q)
  | .bool b => some (numFill (if b then 1 else 0))
  | .str s => if containsSub "<-->".data s.data then some .lightRed else Option.none

/-- A worksheet as the I/O layer presents it to the core: a 1-based
sparse table of cell values.  Out-of-range cells read as absent, as with
openpyxl. -/
structure Grid where
  rows : List (List Value)
deriving DecidableEq, Repr

/-- Embeds `ws.max_row`. -/
def Grid.maxRow (g : Grid) : Nat := g.rows.length

/-- Embeds `ws.max_column`. -/
def Grid.maxCol (g : Grid) : Nat := g.rows.foldr (fun r acc => max r.length acc) 0

/-- Embeds `ws.cell(row=r, column=c).value` (1-based indices). -/
def Grid.cell (g : Grid) (r c : Nat) : Value :=
  (((g.rows.get? (r - 1)).getD []).get? (c - 1)).getD .none

/-- The key-column cells `ws.cell(row, key_column).value` for
`row = 1 .. max_row`, in order. -/
def keyColumnCells (g : Grid) (key_column : Nat) : List Value :=
  (List.range g.maxRow).map fun idx => g.cell (idx + 1) key_column

/-- The key-row cells `ws.cell(key_row, col).value` for
`col = 1 .. max_column`, in order. -/
def keyRowCells (g : Grid) (key_row : Nat) : List Value :=
  (List.range g.maxCol).map fun idx => g.cell key_row (idx + 1)

/-- The guard of excel_diff.py lines 53 and 59 (and 129, 135):
`if cell_value and str(cell_value).strip():` — the cell participates in
matching only when it is truthy and its stringification is not
whitespace-only. -/
def keyKept (v : Value) : Bool :=
  truthy v && !(stripChars (toStr v).data).isEmpty

/-- Builds the `ws_rows` / `ws_cols` dictionary of `find_matching_rows`
(lines 51-54) as an index-ordered association list: index `i` (starting
at the first argument) maps to the normalized key, for cells passing
`keyKept`. -/
def collectKeysFrom : Nat → List Value → List (Nat × String)
  | _, [] => []
  | i, v :: rest =>
    if keyKept v then (i, normalize_text v) :: collectKeysFrom (i + 1) rest
    else collectKeysFrom (i + 1) rest

/-- The key map of a worksheet's key cells, 1-based. -/
def collectKeys (cells : List Value) : List (Nat × String) :=
  collectKeysFrom 1 cells

/-- The mutable state of `find_matching_rows`: the `matches` dictionary
(as an insertion-ordered association list) and the `used_ws2_rows`
set (as the list of values in insertion order). -/
structure AlignState where
  pairs : List (Nat × Nat)
  used : List Nat
deriving DecidableEq, Repr

/-- One iteration of the exact-match pass (lines 66-72): scan `wsB` in
order for the first entry that is unused and has an identical key; on
success record the pair and mark the index used. -/
def exactStep (wsB : List (Nat × String)) (st : AlignState) (p : Nat × String) : AlignState :=
  match wsB.find? (fun q => !(st.used.contains q.1) && q.2 == p.2) with
  | some q => ⟨st.pairs ++ [(p.1, q.1)], st.used ++ [q.1]⟩
  | Option.none => st

/-- The exact-match pass over all of `wsA`, from the empty state. -/
def exactPass (wsA wsB : List (Nat × String)) : AlignState :=
  wsA.foldl (exactStep wsB) ⟨[], []⟩

/-- The inner loop of the fuzzy pass (lines 79-90): fold over `wsB`
keeping `(best_match, best_similarity)`, initially `(None, 0)`; an
unused candidate replaces the running best only when its similarity is
strictly greater and at least `min_similarity`. -/
def fuzzyBest (used : List Nat) (min_similarity : Rat) (key1 : String)
    (wsB : List (Nat × String)) : Option Nat × Rat :=
  wsB.foldl
    (fun best q =>
      if used.contains q.1 then best
      else
        let sim := calculate_similarity key1 q.2
        if best.2 < sim ∧ min_similarity ≤ sim then (some q.1, sim) else best)
    (Option.none, 0)

/-- One iteration of the fuzzy pass (lines 75-98): skip indices matched
already; otherwise commit the best candidate.  The commit guard is
Python's `if best_match:`, which is truthiness on an optional int — the
candidate index `0` would be rejected (worksheet indices start at 1, so
this matters only off the program's input range). -/
def fuzzyStep (wsB : List (Nat × String)) (min_similarity : Rat)
    (st : AlignState) (p : Nat × String) : AlignState :=
  if (st.pairs.map Prod.fst).contains p.1 then st
  else
    match (fuzzyBest st.used min_similarity p.2 wsB).1 with
    | some j =>
      if j ≠ 0 then ⟨st.pairs ++ [(p.1, j)], st.used ++ [j]⟩ else st
    | Option.none => st

/-- The fuzzy pass over all of `wsA`, continuing from the exact pass's
state. -/
def fuzzyPass (wsB : List (Nat × String)) (min_similarity : Rat)
    (wsA : List (Nat × String)) (st : AlignState) : AlignState :=
  wsA.foldl (fuzzyStep wsB min_similarity) st

/-- The complete greedy alignment on key maps: exact pass, then fuzzy
pass; the result is the `matches` association list. -/
def alignKeys (wsA wsB : List (Nat × String)) (min_similarity : Rat) : List (Nat × Nat) :=
  (fuzzyPass wsB min_similarity wsA (exactPass wsA wsB)).pairs

/-- Embeds `find_matching_rows` (excel_diff.py lines 28-101): align the
two worksheets' key-column cells. -/
def find_matching_rows (ws1 ws2 : Grid) (key_column : Nat) (min_similarity : Rat) :
    List (Nat × Nat) :=
  alignKeys (collectKeys (keyColumnCells ws1 key_column))
    (collectKeys (keyColumnCells ws2 key_column)) min_similarity

/-- Embeds `find_matching_columns` (excel_diff.py lines 104-177): the
routine is textually identical to `find_matching_rows` with rows and
columns swapped, so it is the same alignment applied to the key-row
cells. -/
def find_matching_columns (ws1 ws2 : Grid) (key_row : Nat) (min_similarity : Rat) :
    List (Nat × Nat) :=
  alignKeys (collectKeys (keyRowCells ws1 key_row))
    (collectKeys (keyRowCells ws2 key_row)) min_similarity

/-- The cell predicate of `detect_key_row_column` (lines 276, 286):
`if cell_value and not is_numeric(cell_value)`. -/
def cellCounted (v : Value) : Bool := truthy v && !(is_numeric v)

/-- The text count of row `r` (lines 271-278). -/
def rowTextCount (g : Grid) (r : Nat) : Nat :=
  ((List.range g.maxCol).map (· + 1)).countP (fun c => cellCounted (g.cell r c))

/-- The text count of column `c` (lines 281-288). -/
def colTextCount (g : Grid) (c : Nat) : Nat :=
  ((List.range g.maxRow).map (· + 1)).countP (fun r => cellCounted (g.cell r c))

/-- Python `max(items, key=...)` over a list of indices: the first
element attaining the maximum wins; `None` on an empty list (Python
raises `ValueError` there). -/
def pyMaxBy (f : Nat → Nat) : List Nat → Option Nat
  | [] => Option.none
  | x :: xs => some (xs.foldl (fun b y => if f b < f y then y else b) x)

/-- Embeds `detect_key_row_column` (excel_diff.py lines 255-301): the
row and the column with the most truthy non-numeric cells, each chosen
by Python `max` over ascending indices (first maximum wins).  `none`
models the `ValueError` Python `max` raises on an empty sheet
dimension. -/
def detect_key_row_column (g : Grid) : Option (Nat × Nat) :=
  match pyMaxBy (rowTextCount g) ((List.range g.maxRow).map (· + 1)),
      pyMaxBy (colTextCount g) ((List.range g.maxCol).map (· + 1)) with
  | some r, some c => some (r, c)
  | _, _ => Option.none

/-- The cell count the specification's Key Locator claim describes:
cells that are present (not `pd.isna`) and not parseable as a number.
The code's `detect_key_row_column` instead counts truthy non-numeric
cells, which differs on present empty strings; this definition exists to
express that divergence. -/
def specTextCount (g : Grid) (r : Nat) : Nat :=
  ((List.range g.maxCol).map (· + 1)).countP
    (fun c => !(pd_isna (g.cell r c)) && !(is_numeric (g.cell r c)))

/-- The severity vocabulary of the specification. -/
inductive Severity where
  | sevMatch
  | sevMinor
  | sevMajor
  | sevTextMismatch
  | sevOneSided
deriving DecidableEq, Repr

/-- The severity class of one cell comparison.  The branch structure
follows `compare_cells` exactly; the numeric thresholds (`0`, `100`) are
those of `get_cell_color`, which realises the severity as a fill
color. -/
def cellSeverity (value1 value2 : Value) : Severity :=
  if pd_isna value1 && pd_isna value2 then .sevMatch
  else if pd_isna value1 || pd_isna value2 then .sevOneSided
  else if is_numeric value1 && is_numeric value2 then
    let d := ratSub ((pyFloat? value2).getD 0) ((pyFloat? value1).getD 0)
    if d = 0 then .sevMatch else if 100 < |d| then .sevMajor else .sevMinor
  else if toStr value1 = toStr value2 then .sevMatch
  else .sevTextMismatch

/-!
Theorems.  The bridge lemmas first: each `mkRat`-based helper agrees
with the corresponding standard field operation on `Rat`.
-/

theorem ratSub_eq (a b : Rat) : ratSub a b = a - b := by
  have hda : ((a.den : Rat)) ≠ 0 := by exact_mod_cast a.den_nz
  have hdb : ((b.den : Rat)) ≠ 0 := by exact_mod_cast b.den_nz
  conv_rhs => rw [← Rat.num_div_den a, ← Rat.num_div_den b]
  rw [div_sub_div _ _ hda hdb, ratSub, Rat.mkRat_eq_div]
  push_cast
  ring_nf

theorem ratMul_eq (a b : Rat) : ratMul a b = a * b := by
  conv_rhs => rw [← Rat.num_div_den a, ← Rat.num_div_den b]
  rw [div_mul_div_comm, ratMul, Rat.mkRat_eq_div]
  push_cast
  ring_nf

theorem ratDiv_eq (a b : Rat) : ratDiv a b = a / b := by
  by_cases hb0 : b.num = 0
  · have hb : b = 0 := Rat.num_eq_zero.mp hb0
    subst hb
    simp [ratDiv, Rat.mkRat_eq_div]
  · have hda : ((a.den : Rat)) ≠ 0 := by exact_mod_cast a.den_nz
    have hdb : ((b.den : Rat)) ≠ 0 := by exact_mod_cast b.den_nz
    have hbn : ((b.num : Rat)) ≠ 0 := Int.cast_ne_zero.mpr hb0
    have hrhs : a / b = ((a.num : Rat) * (b.den : Rat)) / ((a.den : Rat) * (b.num : Rat)) := by
      conv_lhs => rw [← Rat.num_div_den a, ← Rat.num_div_den b]
      field_simp
    rcases lt_or_gt_of_ne hb0 with hneg | hpos
    · have h1 : ((b.num.natAbs : Int)) = -b.num := by omega
      have habs : ((b.num.natAbs : Nat) : Rat) = -(b.num : Rat) := by
        calc ((b.num.natAbs : Nat) : Rat) = ((b.num.natAbs : Int) : Rat) :=
              (Int.cast_natCast _).symm
          _ = ((-b.num : Int) : Rat) := by rw [h1]
          _ = -(b.num : Rat) := by push_cast; ring
      rw [ratDiv, if_pos hneg, Rat.mkRat_eq_div, hrhs]
      push_cast [habs]
      rw [mul_neg_one, mul_neg, neg_div_neg_eq]
    · have h1 : ((b.num.natAbs : Int)) = b.num := by omega
      have habs : ((b.num.natAbs : Nat) : Rat) = (b.num : Rat) := by
        calc ((b.num.natAbs : Nat) : Rat) = ((b.num.natAbs : Int) : Rat) :=
              (Int.cast_natCast _).symm
          _ = (b.num : Rat) := by rw [h1]
      rw [ratDiv, if_neg (by omega), Rat.mkRat_eq_div, hrhs]
      push_cast [habs]
      rw [mul_one]

theorem pow10_eq (k : Nat) : pow10 k = (10 : Rat) ^ k := by
  rw [pow10, Rat.mkRat_eq_div]
  push_cast
  simp

theorem pd_isna_false_of_is_numeric {v : Value} (h : is_numeric v = true) :
    pd_isna v = false := by
  cases hv : pd_isna v
  · rfl
  · simp [is_numeric, hv] at h

theorem containsSub_cons_of {needle rest : List Char} (c : Char)
    (h : containsSub needle rest = true) : containsSub needle (c :: rest) = true := by
  simp [containsSub, h]

theorem isPrefixOf_self_append (l l2 : List Char) :
    List.isPrefixOf l (l ++ l2) = true := by
  induction l with
  | nil => simp [List.isPrefixOf]
  | cons c t ih => simp [List.isPrefixOf, ih]

theorem containsSub_middle (needle l1 l2 : List Char) :
    containsSub needle (l1 ++ needle ++ l2) = true := by
  induction l1 with
  | nil =>
    cases needle with
    | nil => cases l2 <;> simp [containsSub]
    | cons c t =>
      have h := isPrefixOf_self_append (c :: t) l2
      simp [containsSub, h]
  | cons c t ih =>
    exact containsSub_cons_of c (by simpa using ih)

theorem contains_false_iff {l : List Nat} {x : Nat} :
    (l.contains x = false) ↔ x ∉ l := by
  simp [List.contains]

theorem contains_true_iff {l : List Nat} {x : Nat} :
    (l.contains x = true) ↔ x ∈ l := by
  simp [List.contains]

theorem find?_eq_some_split {α : Type} (p : α → Bool) :
    ∀ (l : List α) (a : α), l.find? p = some a →
      ∃ l1 l2, l = l1 ++ a :: l2 ∧ (∀ x ∈ l1, p x = false) ∧ p a = true := by
  intro l
  induction l with
  | nil => intro a h; simp [List.find?] at h
  | cons x xs ih =>
    intro a h
    by_cases hx : p x = true
    · rw [List.find?_cons_of_pos _ hx] at h
      cases h
      exact ⟨[], xs, rfl, ⟨by simp, hx⟩⟩
    · rw [List.find?_cons_of_neg _ (by simpa using hx)] at h
      obtain ⟨l1, l2, heq, hl1, ha⟩ := ih a h
      refine ⟨x :: l1, l2, by rw [heq]; rfl, ?_, ha⟩
      intro y hy
      rcases List.mem_cons.mp hy with hy | hy
      · subst hy; simpa using hx
      · exact hl1 y hy

theorem foldl_preserve {σ α : Type} (f : σ → α → σ) (P : σ → Prop)
    (hstep : ∀ s a, P s → P (f s a)) :
    ∀ (l : List α) (s : σ), P s → P (List.foldl f s l) := by
  intro l
  induction l with
  | nil => intro s h; simpa
  | cons a rest ih => intro s h; exact ih _ (hstep s a h)

theorem exactStep_extend (wsB : List (Nat × String)) (st : AlignState) (p : Nat × String) :
    ∃ tp tu, (exactStep wsB st p).pairs = st.pairs ++ tp ∧
      (exactStep wsB st p).used = st.used ++ tu := by
  unfold exactStep
  cases wsB.find? (fun q => !(st.used.contains q.1) && q.2 == p.2) with
  | none => exact ⟨[], [], by simp, by simp⟩
  | some q => exact ⟨[(p.1, q.1)], [q.1], rfl, rfl⟩

theorem fuzzyStep_extend (wsB : List (Nat × String)) (t : Rat) (st : AlignState)
    (p : Nat × String) :
    ∃ tp tu, (fuzzyStep wsB t st p).pairs = st.pairs ++ tp ∧
      (fuzzyStep wsB t st p).used = st.used ++ tu := by
  unfold fuzzyStep
  by_cases hc : ((st.pairs.map Prod.fst).contains p.1) = true
  · rw [if_pos hc]; exact ⟨[], [], by simp, by simp⟩
  · rw [if_neg hc]
    cases (fuzzyBest st.used t p.2 wsB).1 with
    | none => exact ⟨[], [], by simp, by simp⟩
    | some j =>
      by_cases hj : j ≠ 0
      · dsimp only
        rw [if_pos hj]
        exact ⟨[(p.1, j)], [j], rfl, rfl⟩
      · dsimp only
        rw [if_neg hj]
        exact ⟨[], [], by simp, by simp⟩

theorem foldl_extend (step : AlignState → (Nat × String) → AlignState)
    (hstep : ∀ st p, ∃ tp tu, (step st p).pairs = st.pairs ++ tp ∧
      (step st p).used = st.used ++ tu) :
    ∀ (l : List (Nat × String)) (st : AlignState),
      ∃ tp tu, (List.foldl step st l).pairs = st.pairs ++ tp ∧
        (List.foldl step st l).used = st.used ++ tu := by
  intro l
  induction l with
  | nil => intro st; exact ⟨[], [], by simp, by simp⟩
  | cons p rest ih =>
    intro st
    obtain ⟨tp1, tu1, h1, h2⟩ := hstep st p
    obtain ⟨tp2, tu2, h3, h4⟩ := ih (step st p)
    refine ⟨tp1 ++ tp2, tu1 ++ tu2, ?_, ?_⟩
    · rw [List.foldl_cons, h3, h1, List.append_assoc]
    · rw [List.foldl_cons, h4, h2, List.append_assoc]

theorem fuzzyBest_avail (used : List Nat) (t : Rat) (key1 : String) :
    ∀ (l : List (Nat × String)) (j : Nat) (s : Rat),
      fuzzyBest used t key1 l = (some j, s) →
      used.contains j = false ∧ j ∈ l.map Prod.fst := by
  intro l
  induction l using List.reverseRecOn with
  | nil => intro j s h; simp [fuzzyBest] at h
  | append_singleton l q ih =>
    intro j s h
    rw [fuzzyBest, List.foldl_append] at h
    rw [show List.foldl _ (Option.none, (0 : Rat)) l = fuzzyBest used t key1 l from rfl] at h
    cases hprev : fuzzyBest used t key1 l with
    | mk b s' =>
      rw [hprev] at h
      simp only [List.foldl] at h
      by_cases hc : used.contains q.1 = true
      · rw [if_pos hc] at h
        obtain ⟨h1, h2⟩ := ih j s (hprev.trans h)
        exact ⟨h1, by simpa using Or.inl h2⟩
      · rw [if_neg hc] at h
        by_cases hcond : s' < calculate_similarity key1 q.2 ∧ t ≤ calculate_similarity key1 q.2
        · rw [if_pos hcond] at h
          cases h
          exact ⟨by simpa using hc, by simp⟩
        · rw [if_neg hcond] at h
          obtain ⟨h1, h2⟩ := ih j s (hprev.trans h)
          exact ⟨h1, by simpa using Or.inl h2⟩

theorem exactStep_inv (wsB : List (Nat × String)) (st : AlignState) (p : Nat × String)
    (h : st.used = st.pairs.map Prod.snd ∧ (st.pairs.map Prod.snd).Nodup) :
    (exactStep wsB st p).used = (exactStep wsB st p).pairs.map Prod.snd ∧
      ((exactStep wsB st p).pairs.map Prod.snd).Nodup := by
  obtain ⟨h1, h2⟩ := h
  unfold exactStep
  cases hf : wsB.find? (fun q => !(st.used.contains q.1) && q.2 == p.2) with
  | none => exact ⟨h1, h2⟩
  | some q =>
    have hq := List.find?_some hf
    have hc : st.used.contains q.1 = false := by
      cases hcc : st.used.contains q.1
      · rfl
      · rw [hcc] at hq; simp at hq
    have hnm : q.1 ∉ st.pairs.map Prod.snd := by
      rw [← h1]; exact contains_false_iff.mp hc
    constructor
    · simp [h1]
    · simp [List.nodup_append, h2, hnm]

theorem fuzzyStep_inv (wsB : List (Nat × String)) (t : Rat) (st : AlignState)
    (p : Nat × String)
    (h : st.used = st.pairs.map Prod.snd ∧ (st.pairs.map Prod.snd).Nodup) :
    (fuzzyStep wsB t st p).used = (fuzzyStep wsB t st p).pairs.map Prod.snd ∧
      ((fuzzyStep wsB t st p).pairs.map Prod.snd).Nodup := by
  obtain ⟨h1, h2⟩ := h
  unfold fuzzyStep
  by_cases hc : ((st.pairs.map Prod.fst).contains p.1) = true
  · rw [if_pos hc]; exact ⟨h1, h2⟩
  · rw [if_neg hc]
    cases hfb : (fuzzyBest st.used t p.2 wsB).1 with
    | none => exact ⟨h1, h2⟩
    | some j =>
      by_cases hj : j ≠ 0
      · dsimp only
        rw [if_pos hj]
        obtain ⟨hcj, _⟩ := fuzzyBest_avail st.used t p.2 wsB j
          (fuzzyBest st.used t p.2 wsB).2 (by rw [← hfb])
        have hnm : j ∉ st.pairs.map Prod.snd := by
          rw [← h1]; exact contains_false_iff.mp hcj
        constructor
        · simp [h1]
        · simp [List.nodup_append, h2, hnm]
      · dsimp only
        rw [if_neg hj]
        exact ⟨h1, h2⟩

theorem exactFold_fstNodup (wsB : List (Nat × String)) :
    ∀ (l : List (Nat × String)) (st : AlignState),
      (st.pairs.map Prod.fst).Nodup →
      (∀ pr ∈ st.pairs, ∀ p ∈ l, pr.1 ≠ p.1) →
      (l.map Prod.fst).Nodup →
      ((List.foldl (exactStep wsB) st l).pairs.map Prod.fst).Nodup := by
  intro l
  induction l with
  | nil => intro st h1 _ _; simpa using h1
  | cons p rest ih =>
    intro st h1 h2 h3
    rw [List.foldl_cons]
    have h3' : p.1 ∉ rest.map Prod.fst ∧ (rest.map Prod.fst).Nodup := by
      have hcons : (p.1 :: rest.map Prod.fst).Nodup := by simpa using h3
      exact List.nodup_cons.mp hcons
    have hrest := h3'.2
    have hpnotin := h3'.1
    apply ih
    · unfold exactStep
      cases hf : wsB.find? (fun q => !(st.used.contains q.1) && q.2 == p.2) with
      | none => exact h1
      | some q =>
        have hnp : p.1 ∉ st.pairs.map Prod.fst := by
          intro hmem
          obtain ⟨pr, hpr, hfst⟩ := List.mem_map.mp hmem
          exact h2 pr hpr p (by simp) hfst
        simp [List.nodup_append, h1, hnp]
    · intro pr hpr p' hp'
      unfold exactStep at hpr
      cases hf : wsB.find? (fun q => !(st.used.contains q.1) && q.2 == p.2) with
      | none =>
        rw [hf] at hpr
        exact h2 pr hpr p' (by simp [hp'])
      | some q =>
        rw [hf] at hpr
        rcases List.mem_append.mp hpr with hpr | hpr
        · exact h2 pr hpr p' (by simp [hp'])
        · have : pr = (p.1, q.1) := by simpa using hpr
          subst this
          intro hEq
          apply hpnotin
          rw [hEq]
          exact List.mem_map_of_mem Prod.fst hp'
    · exact hrest

theorem fuzzyFold_fstNodup (wsB : List (Nat × String)) (t : Rat) :
    ∀ (l : List (Nat × String)) (st : AlignState),
      (st.pairs.map Prod.fst).Nodup →
      ((List.foldl (fuzzyStep wsB t) st l).pairs.map Prod.fst).Nodup := by
  intro l
  induction l with
  | nil => intro st h1; simpa using h1
  | cons p rest ih =>
    intro st h1
    rw [List.foldl_cons]
    apply ih
    unfold fuzzyStep
    by_cases hc : ((st.pairs.map Prod.fst).contains p.1) = true
    · rw [if_pos hc]; exact h1
    · rw [if_neg hc]
      cases hfb : (fuzzyBest st.used t p.2 wsB).1 with
      | none => exact h1
      | some j =>
        by_cases hj : j ≠ 0
        · dsimp only
          rw [if_pos hj]
          have hnp : p.1 ∉ st.pairs.map Prod.fst :=
            contains_false_iff.mp (by simpa using hc)
          simp [List.nodup_append, h1, hnp]
        · dsimp only
          rw [if_neg hj]
          exact h1

theorem collectKeysFrom_lb :
    ∀ (cells : List Value) (i : Nat) (pr : Nat × String),
      pr ∈ collectKeysFrom i cells → i ≤ pr.1 := by
  intro cells
  induction cells with
  | nil => intro i pr h; simp [collectKeysFrom] at h
  | cons v rest ih =>
    intro i pr h
    unfold collectKeysFrom at h
    by_cases hv : keyKept v = true
    · rw [if_pos hv] at h
      rcases List.mem_cons.mp h with h | h
      · subst h; exact le_refl _
      · exact Nat.le_of_succ_le (ih (i + 1) pr h)
    · rw [if_neg hv] at h
      exact Nat.le_of_succ_le (ih (i + 1) pr h)

theorem collectKeysFrom_sorted :
    ∀ (cells : List Value) (i : Nat),
      (collectKeysFrom i cells).Pairwise (fun a b => a.1 < b.1) := by
  intro cells
  induction cells with
  | nil => intro i; simp [collectKeysFrom]
  | cons v rest ih =>
    intro i
    unfold collectKeysFrom
    by_cases hv : keyKept v = true
    · rw [if_pos hv]
      refine List.Pairwise.cons ?_ (ih (i + 1))
      intro pr hpr
      exact Nat.lt_of_succ_le (collectKeysFrom_lb rest (i + 1) pr hpr)
    · rw [if_neg hv]
      exact ih (i + 1)

theorem collectKeys_fstNodup (cells : List Value) :
    ((collectKeys cells).map Prod.fst).Nodup := by
  have h := collectKeysFrom_sorted cells 1
  rw [collectKeys]
  exact List.pairwise_map.mpr (h.imp fun hab => Nat.ne_of_lt hab)

theorem alignKeys_inv (wsA wsB : List (Nat × String)) (t : Rat)
    (hA : (wsA.map Prod.fst).Nodup) :
    ((alignKeys wsA wsB t).map Prod.fst).Nodup ∧
      ((alignKeys wsA wsB t).map Prod.snd).Nodup := by
  constructor
  · unfold alignKeys fuzzyPass exactPass
    apply fuzzyFold_fstNodup
    apply exactFold_fstNodup
    · simp
    · intro pr hpr; simp at hpr
    · exact hA
  · have h := foldl_preserve (fuzzyStep wsB t)
      (fun st => st.used = st.pairs.map Prod.snd ∧ (st.pairs.map Prod.snd).Nodup)
      (fun st p hp => fuzzyStep_inv wsB t st p hp) wsA (exactPass wsA wsB)
      (foldl_preserve (exactStep wsB)
        (fun st => st.used = st.pairs.map Prod.snd ∧ (st.pairs.map Prod.snd).Nodup)
        (fun st p hp => exactStep_inv wsB st p hp) wsA ⟨[], []⟩ ⟨by simp, by simp⟩)
    exact h.2

theorem exactFold_mem (wsB : List (Nat × String)) :
    ∀ (l : List (Nat × String)) (st : AlignState),
      ∀ pr ∈ (List.foldl (exactStep wsB) st l).pairs,
        pr ∈ st.pairs ∨ (pr.1 ∈ l.map Prod.fst ∧ pr.2 ∈ wsB.map Prod.fst) := by
  intro l
  induction l with
  | nil => intro st pr h; exact Or.inl h
  | cons p rest ih =>
    intro st pr h
    rw [List.foldl_cons] at h
    rcases ih (exactStep wsB st p) pr h with hmem | ⟨h1, h2⟩
    · unfold exactStep at hmem
      cases hf : wsB.find? (fun q => !(st.used.contains q.1) && q.2 == p.2) with
      | none => rw [hf] at hmem; exact Or.inl hmem
      | some q =>
        rw [hf] at hmem
        rcases List.mem_append.mp hmem with hmem | hmem
        · exact Or.inl hmem
        · have hq : pr = (p.1, q.1) := by simpa using hmem
          subst hq
          refine Or.inr ⟨by simp, ?_⟩
          exact List.mem_map_of_mem Prod.fst (List.mem_of_find?_eq_some hf)
    · exact Or.inr ⟨by simp [h1], h2⟩

theorem fuzzyFold_mem (wsB : List (Nat × String)) (t : Rat) :
    ∀ (l : List (Nat × String)) (st : AlignState),
      ∀ pr ∈ (List.foldl (fuzzyStep wsB t) st l).pairs,
        pr ∈ st.pairs ∨ (pr.1 ∈ l.map Prod.fst ∧ pr.2 ∈ wsB.map Prod.fst) := by
  intro l
  induction l with
  | nil => intro st pr h; exact Or.inl h
  | cons p rest ih =>
    intro st pr h
    rw [List.foldl_cons] at h
    rcases ih (fuzzyStep wsB t st p) pr h with hmem | ⟨h1, h2⟩
    · unfold fuzzyStep at hmem
      by_cases hc : ((st.pairs.map Prod.fst).contains p.1) = true
      · rw [if_pos hc] at hmem; exact Or.inl hmem
      · rw [if_neg hc] at hmem
        cases hfb : (fuzzyBest st.used t p.2 wsB).1 with
        | none => rw [hfb] at hmem; exact Or.inl hmem
        | some j =>
          rw [hfb] at hmem
          dsimp only at hmem
          by_cases hj : j ≠ 0
          · rw [if_pos hj] at hmem
            rcases List.mem_append.mp hmem with hmem | hmem
            · exact Or.inl hmem
            · have hq : pr = (p.1, j) := by simpa using hmem
              subst hq
              refine Or.inr ⟨by simp, ?_⟩
              exact (fuzzyBest_avail st.used t p.2 wsB j
                (fuzzyBest st.used t p.2 wsB).2 (by rw [← hfb])).2
          · rw [if_neg hj] at hmem; exact Or.inl hmem
    · exact Or.inr ⟨by simp [h1], h2⟩

theorem alignKeys_mem (wsA wsB : List (Nat × String)) (t : Rat) :
    ∀ pr ∈ alignKeys wsA wsB t,
      pr.1 ∈ wsA.map Prod.fst ∧ pr.2 ∈ wsB.map Prod.fst := by
  intro pr h
  unfold alignKeys fuzzyPass at h
  rcases fuzzyFold_mem wsB t wsA (exactPass wsA wsB) pr h with hmem | hgood
  · unfold exactPass at hmem
    rcases exactFold_mem wsB wsA ⟨[], []⟩ pr hmem with hmem | hgood
    · simp at hmem
    · exact hgood
  · exact hgood

theorem collectKeysFrom_mem_fst :
    ∀ (cells : List Value) (s r : Nat),
      r ∈ (collectKeysFrom s cells).map Prod.fst →
      ∃ idx v, cells.get? idx = some v ∧ r = s + idx ∧ keyKept v = true := by
  intro cells
  induction cells with
  | nil => intro s r h; simp [collectKeysFrom] at h
  | cons v rest ih =>
    intro s r h
    unfold collectKeysFrom at h
    by_cases hv : keyKept v = true
    · rw [if_pos hv] at h
      rcases List.mem_map.mp h with ⟨pr, hpr, hfst⟩
      rcases List.mem_cons.mp hpr with hpr | hpr
      · subst hpr
        exact ⟨0, v, rfl, by omega, hv⟩
      · obtain ⟨idx, v', hget, hr, hk⟩ := ih (s + 1) r (by
          rw [← hfst]; exact List.mem_map_of_mem Prod.fst hpr)
        exact ⟨idx + 1, v', by simpa using hget, by omega, hk⟩
    · rw [if_neg hv] at h
      obtain ⟨idx, v', hget, hr, hk⟩ := ih (s + 1) r h
      exact ⟨idx + 1, v', by simpa using hget, by omega, hk⟩

theorem keyColumnCells_val (g : Grid) (c idx : Nat) (v : Value)
    (h : (keyColumnCells g c).get? idx = some v) : v = g.cell (idx + 1) c := by
  rw [keyColumnCells, List.get?_map] at h
  cases hr : (List.range g.maxRow).get? idx with
  | none => rw [hr] at h; simp at h
  | some m =>
    rw [hr] at h
    have hlen : idx < g.maxRow := by
      obtain ⟨he, _⟩ := List.get?_eq_some.mp hr
      simpa using he
    have hm : m = idx := by
      have hidx := List.get?_range hlen
      rw [hidx] at hr
      exact (Option.some.inj hr).symm
    subst hm
    simpa using h.symm

theorem keyRowCells_val (g : Grid) (kr idx : Nat) (v : Value)
    (h : (keyRowCells g kr).get? idx = some v) : v = g.cell kr (idx + 1) := by
  rw [keyRowCells, List.get?_map] at h
  cases hr : (List.range g.maxCol).get? idx with
  | none => rw [hr] at h; simp at h
  | some m =>
    rw [hr] at h
    have hlen : idx < g.maxCol := by
      obtain ⟨he, _⟩ := List.get?_eq_some.mp hr
      simpa using he
    have hm : m = idx := by
      have hidx := List.get?_range hlen
      rw [hidx] at hr
      exact (Option.some.inj hr).symm
    subst hm
    simpa using h.symm

/-- C3: the mapping returned by the aligner is an injective partial
mapping — no sourceB index appears twice as a value and each sourceA
index maps to at most one sourceB index — for every pair of key
collections (with distinct indices, as Python dicts guarantee) and every
threshold, across both passes combined; `find_matching_rows` and
`find_matching_columns` inherit this for every pair of grids. -/
theorem alignment_injective :
    (∀ (wsA wsB : List (Nat × String)) (t : Rat), (wsA.map Prod.fst).Nodup →
      ((alignKeys wsA wsB t).map Prod.fst).Nodup ∧
      ((alignKeys wsA wsB t).map Prod.snd).Nodup) ∧
    (∀ (g1 g2 : Grid) (kc kr : Nat) (t : Rat),
      ((find_matching_rows g1 g2 kc t).map Prod.fst).Nodup ∧
      ((find_matching_rows g1 g2 kc t).map Prod.snd).Nodup ∧
      ((find_matching_columns g1 g2 kr t).map Prod.fst).Nodup ∧
      ((find_matching_columns g1 g2 kr t).map Prod.snd).Nodup) := by
  refine ⟨fun wsA wsB t hA => alignKeys_inv wsA wsB t hA, fun g1 g2 kc kr t => ?_⟩
  have hr := alignKeys_inv (collectKeys (keyColumnCells g1 kc))
    (collectKeys (keyColumnCells g2 kc)) t (collectKeys_fstNodup _)
  have hc := alignKeys_inv (collectKeys (keyRowCells g1 kr))
    (collectKeys (keyRowCells g2 kr)) t (collectKeys_fstNodup _)
  exact ⟨hr.1, hr.2, hc.1, hc.2⟩

/-- Witness for C3 at a concrete pair of key collections whose keys
collide (two A rows and two B rows all share one key). -/
theorem alignment_injective_witness :
    (([(1, "a"), (2, "a")].map Prod.fst).Nodup ∧
      ((alignKeys [(1, "a"), (2, "a")] [(7, "a"), (9, "a")] (mkRat 4 5)).map Prod.fst).Nodup ∧
      ((alignKeys [(1, "a"), (2, "a")] [(7, "a"), (9, "a")] (mkRat 4 5)).map Prod.snd).Nodup) ∧
    alignKeys [(1, "a"), (2, "a")] [(7, "a"), (9, "a")] (mkRat 4 5) = [(1, 7), (2, 9)] := by
  have h := alignment_injective.1 [(1, "a"), (2, "a")] [(7, "a"), (9, "a")]
    (mkRat 4 5) (by decide)
  exact ⟨⟨by decide, h.1, h.2⟩, by decide⟩

/-- C10: a key cell whose raw value is present but falsy — `0`, `0.0`
or `False` — fails the `if cell_value and str(cell_value).strip():`
guard, is excluded from the key map like a blank cell, and therefore
never participates in row or column alignment on either side, although
its stringification is nonempty. -/
theorem falsy_key_excluded (g1 g2 : Grid) (kc kr : Nat) (t : Rat) (r : Nat) :
    (truthy (g1.cell r kc) = false →
      r ∉ (find_matching_rows g1 g2 kc t).map Prod.fst) ∧
    (truthy (g2.cell r kc) = false →
      r ∉ (find_matching_rows g1 g2 kc t).map Prod.snd) ∧
    (truthy (g1.cell kr r) = false →
      r ∉ (find_matching_columns g1 g2 kr t).map Prod.fst) ∧
    (truthy (g2.cell kr r) = false →
      r ∉ (find_matching_columns g1 g2 kr t).map Prod.snd) ∧
    truthy (Value.int 0) = false ∧ truthy (Value.float 0) = false ∧
    truthy (Value.bool false) = false ∧ pd_isna (Value.int 0) = false ∧
    toStr (Value.int 0) = "0" ∧ toStr (Value.float 0) = "0.0" ∧
    toStr (Value.bool false) = "False" := by
  refine ⟨?_, ?_, ?_, ?_, by decide, by decide, by decide, by decide,
    by decide, by decide, by decide⟩
  · intro ht hmem
    rcases List.mem_map.mp hmem with ⟨pr, hpr, hfst⟩
    have h1 := (alignKeys_mem _ _ t pr hpr).1
    rw [hfst] at h1
    obtain ⟨idx, v, hget, hr, hk⟩ := collectKeysFrom_mem_fst _ 1 r h1
    have hv : v = g1.cell (idx + 1) kc := keyColumnCells_val g1 kc idx v hget
    have hridx : r = idx + 1 := by omega
    have : truthy v = true := by
      have := (Bool.and_eq_true _ _).mp hk
      exact this.1
    rw [hv, ← hridx] at this
    rw [ht] at this
    cases this
  · intro ht hmem
    rcases List.mem_map.mp hmem with ⟨pr, hpr, hsnd⟩
    have h1 := (alignKeys_mem _ _ t pr hpr).2
    rw [hsnd] at h1
    obtain ⟨idx, v, hget, hr, hk⟩ := collectKeysFrom_mem_fst _ 1 r h1
    have hv : v = g2.cell (idx + 1) kc := keyColumnCells_val g2 kc idx v hget
    have hridx : r = idx + 1 := by omega
    have : truthy v = true := by
      have := (Bool.and_eq_true _ _).mp hk
      exact this.1
    rw [hv, ← hridx] at this
    rw [ht] at this
    cases this
  · intro ht hmem
    rcases List.mem_map.mp hmem with ⟨pr, hpr, hfst⟩
    have h1 := (alignKeys_mem _ _ t pr hpr).1
    rw [hfst] at h1
    obtain ⟨idx, v, hget, hr, hk⟩ := collectKeysFrom_mem_fst _ 1 r h1
    have hv : v = g1.cell kr (idx + 1) := keyRowCells_val g1 kr idx v hget
    have hridx : r = idx + 1 := by omega
    have : truthy v = true := by
      have := (Bool.and_eq_true _ _).mp hk
      exact this.1
    rw [hv, ← hridx] at this
    rw [ht] at this
    cases this
  · intro ht hmem
    rcases List.mem_map.mp hmem with ⟨pr, hpr, hsnd⟩
    have h1 := (alignKeys_mem _ _ t pr hpr).2
    rw [hsnd] at h1
    obtain ⟨idx, v, hget, hr, hk⟩ := collectKeysFrom_mem_fst _ 1 r h1
    have hv : v = g2.cell kr (idx + 1) := keyRowCells_val g2 kr idx v hget
    have hridx : r = idx + 1 := by omega
    have : truthy v = true := by
      have := (Bool.and_eq_true _ _).mp hk
      exact this.1
    rw [hv, ← hridx] at this
    rw [ht] at this
    cases this

/-- Witness for C10: a grid whose key cell holds the number `0` (and
another holding `0.0`) is never matched, on either side. -/
theorem falsy_key_excluded_witness :
    truthy (Grid.cell ⟨[[.int 0], [.str "x"]]⟩ 1 1) = false ∧
    1 ∉ (find_matching_rows ⟨[[.int 0], [.str "x"]]⟩ ⟨[[.str "x"], [.float 0]]⟩ 1
      (mkRat 4 5)).map Prod.fst ∧
    truthy (Grid.cell ⟨[[.str "x"], [.float 0]]⟩ 2 1) = false ∧
    2 ∉ (find_matching_rows ⟨[[.int 0], [.str "x"]]⟩ ⟨[[.str "x"], [.float 0]]⟩ 1
      (mkRat 4 5)).map Prod.snd ∧
    find_matching_rows ⟨[[.int 0], [.str "x"]]⟩ ⟨[[.str "x"], [.float 0]]⟩ 1
      (mkRat 4 5) = [(2, 1)] := by
  have h := falsy_key_excluded ⟨[[.int 0], [.str "x"]]⟩ ⟨[[.str "x"], [.float 0]]⟩
    1 1 (mkRat 4 5)
  exact ⟨by decide, (h 1).1 (by decide), by decide, (h 2).2.1 (by decide), by decide⟩

theorem fuzzyBest_append (used : List Nat) (t : Rat) (key1 : String)
    (l : List (Nat × String)) (q : Nat × String) :
    fuzzyBest used t key1 (l ++ [q]) =
      (if used.contains q.1 then fuzzyBest used t key1 l
        else if (fuzzyBest used t key1 l).2 < calculate_similarity key1 q.2 ∧
            t ≤ calculate_similarity key1 q.2 then
          (some q.1, calculate_similarity key1 q.2)
        else fuzzyBest used t key1 l) := by
  rw [fuzzyBest, List.foldl_append]
  rfl

theorem fuzzyBest_cases (used : List Nat) (t : Rat) (key1 : String) (ht : 0 < t) :
    ∀ l : List (Nat × String),
      (fuzzyBest used t key1 l = (Option.none, 0) ∧
        ∀ q ∈ l, (used.contains q.1) = false → calculate_similarity key1 q.2 < t) ∨
      (∃ j s, fuzzyBest used t key1 l = (some j, s) ∧ t ≤ s ∧
        (used.contains j) = false ∧
        ∃ l1 k l2, l = l1 ++ (j, k) :: l2 ∧ calculate_similarity key1 k = s ∧
          (∀ q ∈ l1, (used.contains q.1) = false → calculate_similarity key1 q.2 < s) ∧
          (∀ q ∈ l2, (used.contains q.1) = false → calculate_similarity key1 q.2 ≤ s)) := by
  intro l
  induction l using List.reverseRecOn with
  | nil =>
    left
    exact ⟨rfl, by intro q hq; cases hq⟩
  | append_singleton l q ih =>
    rcases ih with ⟨hprev, hall⟩ |
      ⟨j, s, hprev, hts, hcj, l1, k, l2, heq, hsim, hl1, hl2⟩
    · by_cases hc : used.contains q.1 = true
      · left
        refine ⟨by rw [fuzzyBest_append, hprev, if_pos hc], ?_⟩
        intro q' hq' hc'
        rcases List.mem_append.mp hq' with h | h
        · exact hall q' h hc'
        · have hqq : q' = q := by simpa using h
          subst hqq
          rw [hc'] at hc
          cases hc
      · have hcf : used.contains q.1 = false := by
          revert hc; cases used.contains q.1 <;> simp
        by_cases hcond : t ≤ calculate_similarity key1 q.2
        · right
          refine ⟨q.1, calculate_similarity key1 q.2, ?_, hcond, hcf,
            l, q.2, [], by simp, rfl, ?_, by intro q' hq'; cases hq'⟩
          · rw [fuzzyBest_append, hprev, if_neg hc,
              if_pos ⟨lt_of_lt_of_le ht hcond, hcond⟩]
          · intro q' hq' hc'
            exact lt_of_lt_of_le (hall q' hq' hc') hcond
        · left
          refine ⟨?_, ?_⟩
          · rw [fuzzyBest_append, hprev, if_neg hc,
              if_neg (fun hcc => hcond hcc.2)]
          · intro q' hq' hc'
            rcases List.mem_append.mp hq' with h | h
            · exact hall q' h hc'
            · have hqq : q' = q := by simpa using h
              subst hqq
              exact lt_of_not_le hcond
    · by_cases hc : used.contains q.1 = true
      · right
        refine ⟨j, s, ?_, hts, hcj, l1, k, l2 ++ [q], by rw [heq]; simp, hsim, hl1, ?_⟩
        · rw [fuzzyBest_append, hprev, if_pos hc]
        · intro q' hq' hc'
          rcases List.mem_append.mp hq' with h | h
          · exact hl2 q' h hc'
          · have hqq : q' = q := by simpa using h
            subst hqq
            rw [hc'] at hc
            cases hc
      · have hcf : used.contains q.1 = false := by
          revert hc; cases used.contains q.1 <;> simp
        by_cases hcond : s < calculate_similarity key1 q.2 ∧
            t ≤ calculate_similarity key1 q.2
        · right
          refine ⟨q.1, calculate_similarity key1 q.2, ?_, hcond.2, hcf,
            l, q.2, [], by simp, rfl, ?_, by intro q' hq'; cases hq'⟩
          · rw [fuzzyBest_append, hprev, if_neg hc, if_pos hcond]
          · intro q' hq' hc'
            rw [heq] at hq'
            rcases List.mem_append.mp hq' with h | h
            · exact lt_trans (hl1 q' h hc') hcond.1
            · rcases List.mem_cons.mp h with h | h
              · subst h
                simpa [hsim] using hcond.1
              · exact lt_of_le_of_lt (hl2 q' h hc') hcond.1
        · right
          have hle2 : calculate_similarity key1 q.2 ≤ s := by
            by_cases hlt : t ≤ calculate_similarity key1 q.2
            · by_contra hgt
              exact hcond ⟨lt_of_not_le hgt, hlt⟩
            · exact le_trans (le_of_lt (lt_of_not_le hlt)) hts
          refine ⟨j, s, ?_, hts, hcj, l1, k, l2 ++ [q], by rw [heq]; simp, hsim, hl1, ?_⟩
          · rw [fuzzyBest_append, hprev, if_neg hc, if_neg hcond]
          · intro q' hq' hc'
            rcases List.mem_append.mp hq' with h | h
            · exact hl2 q' h hc'
            · have hqq : q' = q := by simpa using h
              subst hqq
              exact hle2

/-- C5: in the fuzzy pass, for a sourceA entry not matched already, a
mapping is committed exactly when some still-unused sourceB index
reaches the threshold; the chosen candidate is the earliest-scanned
maximum-similarity one (strict improvement only, so equal scores keep
the earlier candidate), and the commit appends the pair and marks the
index used. -/
theorem fuzzy_step_spec (wsB : List (Nat × String)) (t : Rat) (ht : 0 < t)
    (st : AlignState) (p : Nat × String)
    (hp : ((st.pairs.map Prod.fst).contains p.1) = false)
    (hpos : ∀ q ∈ wsB, q.1 ≠ 0) :
    ((∃ j s, fuzzyBest st.used t p.2 wsB = (some j, s)) ↔
      ∃ q ∈ wsB, (st.used.contains q.1) = false ∧
        t ≤ calculate_similarity p.2 q.2) ∧
    (∀ j s, fuzzyBest st.used t p.2 wsB = (some j, s) →
      t ≤ s ∧ (st.used.contains j) = false ∧
      (∃ l1 k l2, wsB = l1 ++ (j, k) :: l2 ∧ calculate_similarity p.2 k = s ∧
        (∀ q ∈ l1, (st.used.contains q.1) = false →
          calculate_similarity p.2 q.2 < s) ∧
        (∀ q ∈ l2, (st.used.contains q.1) = false →
          calculate_similarity p.2 q.2 ≤ s)) ∧
      fuzzyStep wsB t st p = ⟨st.pairs ++ [(p.1, j)], st.used ++ [j]⟩) ∧
    (fuzzyBest st.used t p.2 wsB = (Option.none, 0) →
      fuzzyStep wsB t st p = st) ∧
    ((fuzzyBest st.used t p.2 wsB).1.isSome = false →
      fuzzyBest st.used t p.2 wsB = (Option.none, 0)) := by
  rcases fuzzyBest_cases st.used t p.2 ht wsB with ⟨hnone, hall⟩ |
    ⟨j, s, hsome, hts, hcj, l1, k, l2, heq, hsim, hl1, hl2⟩
  · refine ⟨?_, ?_, ?_, fun _ => hnone⟩
    · constructor
      · rintro ⟨j, s, hjs⟩
        rw [hnone] at hjs
        simp at hjs
      · rintro ⟨q, hq, hcq, hsq⟩
        exact absurd hsq (not_le.mpr (hall q hq hcq))
    · intro j s hjs
      rw [hnone] at hjs
      simp at hjs
    · intro _
      have h1 : (fuzzyBest st.used t p.2 wsB).1 = Option.none := by rw [hnone]
      unfold fuzzyStep
      rw [if_neg (fun hcc => by rw [hp] at hcc; cases hcc), h1]
  · have hsome1 : (fuzzyBest st.used t p.2 wsB).1 = some j := by rw [hsome]
    have hjmem : (j, k) ∈ wsB := by rw [heq]; simp
    have hj0 : j ≠ 0 := hpos (j, k) hjmem
    have hcommit : fuzzyStep wsB t st p = ⟨st.pairs ++ [(p.1, j)], st.used ++ [j]⟩ := by
      unfold fuzzyStep
      rw [if_neg (fun hcc => by rw [hp] at hcc; cases hcc), hsome1]
      dsimp only
      rw [if_pos hj0]
    refine ⟨?_, ?_, ?_, ?_⟩
    · exact ⟨fun _ => ⟨(j, k), hjmem, hcj, by rw [hsim]; exact hts⟩,
        fun _ => ⟨j, s, hsome⟩⟩
    · intro j' s' hjs
      rw [hsome] at hjs
      have hj : j = j' := by
        have := congrArg Prod.fst hjs
        simpa using this
      have hs : s = s' := by
        have := congrArg Prod.snd hjs
        simpa using this
      subst hj
      subst hs
      exact ⟨hts, hcj, ⟨l1, k, l2, heq, hsim, hl1, hl2⟩, hcommit⟩
    · intro hz
      rw [hsome] at hz
      simp at hz
    · intro hz
      rw [hsome1] at hz
      simp at hz

/-- Witness for C5 at a concrete fuzzy step with an equal-score tie:
both candidates score 1/3, and the earliest-scanned index 5 wins. -/
theorem fuzzy_step_spec_witness :
    (0 : Rat) < mkRat 1 3 ∧
    calculate_similarity "a b" "a c" = mkRat 1 3 ∧
    calculate_similarity "a b" "a d" = mkRat 1 3 ∧
    fuzzyBest [] (mkRat 1 3) "a b" [(5, "a c"), (6, "a d")] = (some 5, mkRat 1 3) ∧
    fuzzyStep [(5, "a c"), (6, "a d")] (mkRat 1 3) ⟨[], []⟩ (1, "a b") =
      ⟨[(1, 5)], [5]⟩ := by
  have h := fuzzy_step_spec [(5, "a c"), (6, "a d")] (mkRat 1 3) (by decide)
    ⟨[], []⟩ (1, "a b") (by decide) (by decide)
  exact ⟨by decide, by decide, by decide, by decide,
    ((h.2.1 5 (mkRat 1 3) (by decide)).2.2.2)⟩

theorem exactStep_none (wsB : List (Nat × String)) (st : AlignState) (p : Nat × String)
    (h : wsB.find? (fun q => !(st.used.contains q.1) && q.2 == p.2) = Option.none) :
    exactStep wsB st p = st := by
  unfold exactStep
  rw [h]

theorem exactStep_some (wsB : List (Nat × String)) (st : AlignState) (p : Nat × String)
    (q : Nat × String)
    (h : wsB.find? (fun q => !(st.used.contains q.1) && q.2 == p.2) = some q) :
    exactStep wsB st p = ⟨st.pairs ++ [(p.1, q.1)], st.used ++ [q.1]⟩ := by
  unfold exactStep
  rw [h]

theorem exactFold_keys (wsB : List (Nat × String)) :
    ∀ (l : List (Nat × String)) (st : AlignState),
      ∀ pr ∈ (List.foldl (exactStep wsB) st l).pairs,
        pr ∈ st.pairs ∨ ∃ k, (pr.1, k) ∈ l ∧ (pr.2, k) ∈ wsB := by
  intro l
  induction l with
  | nil => intro st pr h; exact Or.inl h
  | cons p rest ih =>
    intro st pr h
    rw [List.foldl_cons] at h
    rcases ih (exactStep wsB st p) pr h with hmem | ⟨k, h1, h2⟩
    · cases hf : wsB.find? (fun q => !(st.used.contains q.1) && q.2 == p.2) with
      | none =>
        rw [exactStep_none wsB st p hf] at hmem
        exact Or.inl hmem
      | some q =>
        rw [exactStep_some wsB st p q hf] at hmem
        rcases List.mem_append.mp hmem with hmem | hmem
        · exact Or.inl hmem
        · have hq : pr = (p.1, q.1) := by simpa using hmem
          subst hq
          have hpred := List.find?_some hf
          have hkey : q.2 = p.2 := by
            have h2 := ((Bool.and_eq_true _ _).mp hpred).2
            exact eq_of_beq h2
          refine Or.inr ⟨p.2, by simp, ?_⟩
          have : (q.1, q.2) ∈ wsB := List.mem_of_find?_eq_some hf
          rwa [hkey] at this
    · exact Or.inr ⟨k, by simp [h1], h2⟩

theorem exactFold_maximal (wsB : List (Nat × String)) :
    ∀ (l : List (Nat × String)) (st : AlignState),
      ∀ p ∈ l, p.1 ∉ (List.foldl (exactStep wsB) st l).pairs.map Prod.fst →
        ∀ q ∈ wsB, ((List.foldl (exactStep wsB) st l).used.contains q.1) = false →
          q.2 ≠ p.2 := by
  intro l
  induction l with
  | nil => intro st p hp; cases hp
  | cons p' rest ih =>
    intro st p hp hnot q hq hcq
    rw [List.foldl_cons] at hnot hcq
    rcases List.mem_cons.mp hp with hp | hp
    · subst hp
      cases hf : wsB.find? (fun q => !(st.used.contains q.1) && q.2 == p.2) with
      | some q'' =>
        exfalso
        apply hnot
        obtain ⟨tp, tu, hpe, _⟩ := foldl_extend (exactStep wsB)
          (exactStep_extend wsB) rest (exactStep wsB st p)
        rw [hpe, exactStep_some wsB st p q'' hf]
        simp
      | none =>
        have hall := List.find?_eq_none.mp hf q hq
        intro hkey
        cases hu : st.used.contains q.1 with
        | true =>
          have hqin : q.1 ∈ st.used := contains_true_iff.mp hu
          obtain ⟨tp, tu, _, hue⟩ := foldl_extend (exactStep wsB)
            (exactStep_extend wsB) rest (exactStep wsB st p)
          have hqfin :
              q.1 ∈ (List.foldl (exactStep wsB) (exactStep wsB st p) rest).used := by
            rw [hue, exactStep_none wsB st p hf]
            exact List.mem_append_left _ hqin
          rw [contains_false_iff] at hcq
          exact hcq hqfin
        | false =>
          apply hall
          rw [hu, hkey]
          simp
    · exact ih (exactStep wsB st p') p hp hnot q hq hcq

theorem exactFold_sublist (wsB : List (Nat × String)) :
    ∀ (l : List (Nat × String)) (st : AlignState),
      ∃ rest, (List.foldl (exactStep wsB) st l).pairs = st.pairs ++ rest ∧
        List.Sublist (rest.map Prod.fst) (l.map Prod.fst) := by
  intro l
  induction l with
  | nil => intro st; exact ⟨[], by simp, by simp⟩
  | cons p tail ih =>
    intro st
    rw [List.foldl_cons]
    cases hf : wsB.find? (fun q => !(st.used.contains q.1) && q.2 == p.2) with
    | none =>
      rw [exactStep_none wsB st p hf]
      obtain ⟨rest, h1, h2⟩ := ih st
      exact ⟨rest, h1, by simpa using List.Sublist.cons p.1 h2⟩
    | some q =>
      rw [exactStep_some wsB st p q hf]
      obtain ⟨rest, h1, h2⟩ := ih ⟨st.pairs ++ [(p.1, q.1)], st.used ++ [q.1]⟩
      refine ⟨(p.1, q.1) :: rest, ?_, ?_⟩
      · rw [h1]
        simp
      · simpa using List.Sublist.cons₂ p.1 h2

theorem exactFold_lowest (wsB : List (Nat × String))
    (hB : wsB.Pairwise (fun a b => a.1 < b.1)) :
    ∀ (l : List (Nat × String)) (st : AlignState),
      st.used = st.pairs.map Prod.snd →
      l.Pairwise (fun a b => a.1 < b.1) →
      (∀ pr ∈ st.pairs, ∀ p' ∈ l, pr.1 < p'.1) →
      ∀ i j, (i, j) ∈ (List.foldl (exactStep wsB) st l).pairs →
        (i, j) ∉ st.pairs →
        ∀ q ∈ wsB, q.1 < j → (∃ k, (i, k) ∈ l ∧ q.2 = k) →
          ∃ i', i' < i ∧ (i', q.1) ∈ (List.foldl (exactStep wsB) st l).pairs := by
  intro l
  induction l with
  | nil =>
    intro st _ _ _ i j hmem hnmem
    rw [List.foldl_nil] at hmem
    exact absurd hmem hnmem
  | cons p rest ih =>
    intro st hInv hPair hOrd i j hmem hnmem q hq hqlt ⟨k, hik, hqk⟩
    rw [List.foldl_cons] at hmem
    have hPair' := (List.pairwise_cons.mp hPair).2
    have hHead := (List.pairwise_cons.mp hPair).1
    cases hf : wsB.find? (fun q' => !(st.used.contains q'.1) && q'.2 == p.2) with
    | none =>
      rw [exactStep_none wsB st p hf] at hmem
      have hik' : (i, k) ∈ rest := by
        rcases List.mem_cons.mp hik with hik | hik
        · exfalso
          rcases exactFold_mem wsB rest st (i, j) hmem with hin | ⟨hfst, _⟩
          · exact hnmem hin
          · have hip : i = p.1 := congrArg Prod.fst hik
            rcases List.mem_map.mp hfst with ⟨pr, hpr, hpr1⟩
            have := hHead pr hpr
            omega
        · exact hik
      have hres := ih st hInv hPair'
        (fun pr hpr p' hp' => hOrd pr hpr p' (by simp [hp'])) i j hmem hnmem
        q hq hqlt ⟨k, hik', hqk⟩
      rw [List.foldl_cons, exactStep_none wsB st p hf]
      exact hres
    | some q'' =>
      rw [exactStep_some wsB st p q'' hf] at hmem
      set st' : AlignState := ⟨st.pairs ++ [(p.1, q''.1)], st.used ++ [q''.1]⟩ with hst'
      by_cases hmem' : (i, j) ∈ st'.pairs
      · -- the pair was created by this very step
        have hij : (i, j) = (p.1, q''.1) := by
          rcases List.mem_append.mp hmem' with h | h
          · exact absurd h hnmem
          · simpa using h
        have hi : i = p.1 := congrArg Prod.fst hij
        have hj : j = q''.1 := congrArg Prod.snd hij
        have hkp : k = p.2 := by
          rcases List.mem_cons.mp hik with hik | hik
          · exact (congrArg Prod.snd hik)
          · exfalso
            have := hHead (i, k) hik
            omega
        obtain ⟨w1, w2, hweq, hw1, _⟩ := find?_eq_some_split _ wsB q'' hf
        have hqin1 : q ∈ w1 := by
          rcases List.mem_append.mp (by rw [← hweq]; exact hq) with h | h
          · exact h
          · exfalso
            rcases List.mem_cons.mp h with h | h
            · subst h; omega
            · have hp2 : q''.1 < q.1 := by
                have hBsplit := hweq ▸ hB
                have := (List.pairwise_cons.mp (List.pairwise_append.mp hBsplit).2.1).1
                exact this q h
              omega
        have hpred : (!(st.used.contains q.1) && (q.2 == p.2)) = false := hw1 q hqin1
        have hbeq : (q.2 == p.2) = true := by
          rw [hqk, hkp]
          exact beq_self_eq_true _
        have hcontains : st.used.contains q.1 = true := by
          cases hu : st.used.contains q.1 with
          | true => rfl
          | false =>
            exfalso
            rw [hu, hbeq] at hpred
            simp at hpred
        have hqmem : q.1 ∈ st.pairs.map Prod.snd := by
          rw [← hInv]
          exact contains_true_iff.mp hcontains
        rcases List.mem_map.mp hqmem with ⟨pr, hpr, hpr2⟩
        refine ⟨pr.1, ?_, ?_⟩
        · have := hOrd pr hpr p (by simp)
          omega
        · obtain ⟨tp, tu, hpe, _⟩ := foldl_extend (exactStep wsB)
            (exactStep_extend wsB) rest st'
          rw [List.foldl_cons, exactStep_some wsB st p q'' hf, ← hst', hpe]
          have : (pr.1, q.1) = pr := by
            rw [← hpr2]
          rw [this]
          exact List.mem_append_left _ (List.mem_append_left _ hpr)
      · -- the pair was created later in the fold
        have hik' : (i, k) ∈ rest := by
          rcases List.mem_cons.mp hik with hik | hik
          · exfalso
            rcases exactFold_mem wsB rest st' (i, j) hmem with hin | ⟨hfst, _⟩
            · exact hmem' hin
            · have hip : i = p.1 := congrArg Prod.fst hik
              rcases List.mem_map.mp hfst with ⟨pr, hpr, hpr1⟩
              have := hHead pr hpr
              omega
          · exact hik
        have hInv' : st'.used = st'.pairs.map Prod.snd := by
          rw [hst']
          simp [hInv]
        have hOrd' : ∀ pr ∈ st'.pairs, ∀ p' ∈ rest, pr.1 < p'.1 := by
          intro pr hpr p' hp'
          rcases List.mem_append.mp hpr with h | h
          · exact hOrd pr h p' (by simp [hp'])
          · have : pr = (p.1, q''.1) := by simpa using h
            subst this
            exact hHead p' hp'
        have hres := ih st' hInv' hPair' hOrd' i j hmem hmem' q hq hqlt ⟨k, hik', hqk⟩
        rw [List.foldl_cons, exactStep_some wsB st p q'' hf]
        exact hres

/-- C4: the exact-match pass runs to completion before any fuzzy
matching: sourceA indices are processed in ascending order (the matched
A indices form a sublist of the A key list), every exact pair joins
entries with identical normalized keys, each A entry takes the lowest
not-yet-used B index with that key (any lower B index with the same key
was consumed by an earlier A entry), and after the pass an unmatched A
entry has no unused exact B counterpart — so the fuzzy pass can never
consume a B index while its exact match is still available. -/
theorem exact_pass_spec (wsA wsB : List (Nat × String))
    (hA : wsA.Pairwise (fun a b => a.1 < b.1))
    (hB : wsB.Pairwise (fun a b => a.1 < b.1)) :
    (∀ pr ∈ (exactPass wsA wsB).pairs,
      ∃ k, (pr.1, k) ∈ wsA ∧ (pr.2, k) ∈ wsB) ∧
    List.Sublist ((exactPass wsA wsB).pairs.map Prod.fst) (wsA.map Prod.fst) ∧
    (∀ i j, (i, j) ∈ (exactPass wsA wsB).pairs →
      ∀ q ∈ wsB, q.1 < j → (∃ k, (i, k) ∈ wsA ∧ q.2 = k) →
        ∃ i', i' < i ∧ (i', q.1) ∈ (exactPass wsA wsB).pairs) ∧
    (∀ p ∈ wsA, p.1 ∉ (exactPass wsA wsB).pairs.map Prod.fst →
      ∀ q ∈ wsB, ((exactPass wsA wsB).used.contains q.1) = false → q.2 ≠ p.2) := by
  refine ⟨?_, ?_, ?_, ?_⟩
  · intro pr hpr
    rcases exactFold_keys wsB wsA ⟨[], []⟩ pr hpr with h | h
    · simp at h
    · exact h
  · obtain ⟨rest, h1, h2⟩ := exactFold_sublist wsB wsA ⟨[], []⟩
    have hpe : (exactPass wsA wsB).pairs = rest := by
      rw [exactPass, h1]
      simp
    rw [hpe]
    exact h2
  · intro i j hij q hq hlt hex
    exact exactFold_lowest wsB hB wsA ⟨[], []⟩ rfl hA
      (fun pr hpr => absurd hpr (List.not_mem_nil pr)) i j hij
      (List.not_mem_nil (i, j)) q hq hlt hex
  · exact exactFold_maximal wsB wsA ⟨[], []⟩

/-- Witness for C4 at concrete key lists: A keys `a, b` against B keys
`b, c`; the pass matches A row 2 to B row 1, processes A in order, and
leaves nothing exact for the unmatched A row 1 (its key differs from the
remaining B key `c`). -/
theorem exact_pass_spec_witness :
    (exactPass [(1, "a"), (2, "b")] [(1, "b"), (2, "c")]).pairs = [(2, 1)] ∧
    List.Sublist
      ((exactPass [(1, "a"), (2, "b")] [(1, "b"), (2, "c")]).pairs.map Prod.fst)
      ([(1, "a"), (2, "b")].map Prod.fst) ∧
    ("c" : String) ≠ "a" := by
  have h := exact_pass_spec [(1, "a"), (2, "b")] [(1, "b"), (2, "c")]
    (by decide) (by decide)
  exact ⟨by decide, h.2.1,
    h.2.2.2 (1, "a") (by decide) (by decide) (2, "c") (by decide) (by decide)⟩

theorem pyFold_split (f : Nat → Nat) :
    ∀ (xs : List Nat) (x : Nat),
      ∃ l1 l2,
        x :: xs = l1 ++ (List.foldl (fun b y => if f b < f y then y else b) x xs) :: l2 ∧
        (∀ y ∈ l1, f y < f (List.foldl (fun b y => if f b < f y then y else b) x xs)) ∧
        (∀ y ∈ l2, f y ≤ f (List.foldl (fun b y => if f b < f y then y else b) x xs)) := by
  intro xs
  induction xs using List.reverseRecOn with
  | nil => intro x; exact ⟨[], [], rfl, by simp, by simp⟩
  | append_singleton xs y ih =>
    intro x
    obtain ⟨l1, l2, heq, hl1, hl2⟩ := ih x
    rw [List.foldl_append]
    simp only [List.foldl]
    by_cases hcc : f (List.foldl (fun b y => if f b < f y then y else b) x xs) < f y
    · rw [if_pos hcc]
      refine ⟨x :: xs, [], by simp, ?_, by simp⟩
      intro z hz
      rw [heq] at hz
      rcases List.mem_append.mp hz with h | h
      · exact lt_trans (hl1 z h) hcc
      · rcases List.mem_cons.mp h with h | h
        · subst h; exact hcc
        · exact lt_of_le_of_lt (hl2 z h) hcc
    · rw [if_neg hcc]
      refine ⟨l1, l2 ++ [y], ?_, hl1, ?_⟩
      · rw [show x :: (xs ++ [y]) = (x :: xs) ++ [y] from by simp, heq]
        simp
      · intro z hz
        rcases List.mem_append.mp hz with h | h
        · exact hl2 z h
        · have : z = y := by simpa using h
          subst this
          exact le_of_not_lt hcc

theorem pyMaxBy_spec (f : Nat → Nat) :
    ∀ (l : List Nat) (m : Nat), pyMaxBy f l = some m →
      ∃ l1 l2, l = l1 ++ m :: l2 ∧ (∀ y ∈ l1, f y < f m) ∧ (∀ y ∈ l2, f y ≤ f m) := by
  intro l m h
  cases l with
  | nil => simp [pyMaxBy] at h
  | cons x xs =>
    have hm : List.foldl (fun b y => if f b < f y then y else b) x xs = m :=
      Option.some.inj h
    obtain ⟨l1, l2, heq, hl1, hl2⟩ := pyFold_split f xs x
    rw [hm] at heq hl1 hl2
    exact ⟨l1, l2, heq, hl1, hl2⟩

theorem range_map_mem (n y : Nat) :
    y ∈ (List.range n).map (· + 1) ↔ 1 ≤ y ∧ y ≤ n := by
  simp only [List.mem_map, List.mem_range]
  constructor
  · rintro ⟨a, ha, rfl⟩
    omega
  · rintro ⟨h1, h2⟩
    exact ⟨y - 1, by omega, by omega⟩

theorem range_map_sorted (n : Nat) :
    ((List.range n).map (· + 1)).Pairwise (· < ·) := by
  refine List.pairwise_map.mpr ?_
  exact (List.pairwise_lt_range n).imp (by omega)

theorem pyMaxBy_range_spec (f : Nat → Nat) (n : Nat) :
    ∀ m, pyMaxBy f ((List.range n).map (· + 1)) = some m →
      1 ≤ m ∧ m ≤ n ∧ (∀ y, 1 ≤ y → y ≤ n → f y ≤ f m) ∧
        (∀ y, 1 ≤ y → y < m → f y < f m) := by
  intro m hm
  obtain ⟨l1, l2, heq, hl1, hl2⟩ := pyMaxBy_spec f _ m hm
  have hmmem : m ∈ (List.range n).map (· + 1) := by rw [heq]; simp
  have hm1 := (range_map_mem n m).mp hmmem
  have hsorted := range_map_sorted n
  rw [heq] at hsorted
  have hml2 : ∀ z ∈ l2, m < z :=
    (List.pairwise_cons.mp (List.pairwise_append.mp hsorted).2.1).1
  refine ⟨hm1.1, hm1.2, ?_, ?_⟩
  · intro y hy1 hy2
    have hymem : y ∈ l1 ++ m :: l2 := by
      rw [← heq]
      exact (range_map_mem n y).mpr ⟨hy1, hy2⟩
    rcases List.mem_append.mp hymem with h | h
    · exact le_of_lt (hl1 y h)
    · rcases List.mem_cons.mp h with h | h
      · subst h; exact le_refl _
      · exact hl2 y h
  · intro y hy1 hylt
    have hy2 : y ≤ n := le_trans (le_of_lt hylt) hm1.2
    have hymem : y ∈ l1 ++ m :: l2 := by
      rw [← heq]
      exact (range_map_mem n y).mpr ⟨hy1, hy2⟩
    rcases List.mem_append.mp hymem with h | h
    · exact hl1 y h
    · rcases List.mem_cons.mp h with h | h
      · omega
      · exact absurd (hml2 y h) (by omega)

/-- C9 counterexample: the claim counts cells that are present and not
parseable; on the grid with a present empty-string cell in row 1 and a
text cell in row 2, both rows have one such cell, so the claim's
tie-break demands row 1 — but the code's truthiness guard skips the
empty string and returns row 2. -/
theorem detect_key_row_column_counterexample :
    detect_key_row_column ⟨[[.str ""], [.str "a"]]⟩ = some (2, 1) ∧
    specTextCount ⟨[[.str ""], [.str "a"]]⟩ 1 = 1 ∧
    specTextCount ⟨[[.str ""], [.str "a"]]⟩ 2 = 1 ∧
    pd_isna (Value.str "") = false ∧ is_numeric (Value.str "") = false := by
  refine ⟨by decide, by decide, by decide, by decide, by decide⟩

/-- C9 (amended): for every nonempty grid the Key Locator returns the
row with the maximum count of truthy non-numeric cells and,
independently, the column with the maximum such count; on ties the
lowest index wins (every strictly smaller index has a strictly smaller
count). -/
theorem detect_key_row_column_spec (g : Grid)
    (hr : 1 ≤ g.maxRow) (hcn : 1 ≤ g.maxCol) :
    (detect_key_row_column g).isSome = true ∧
    ∀ r c, detect_key_row_column g = some (r, c) →
      (1 ≤ r ∧ r ≤ g.maxRow ∧
        (∀ y, 1 ≤ y → y ≤ g.maxRow → rowTextCount g y ≤ rowTextCount g r) ∧
        (∀ y, 1 ≤ y → y < r → rowTextCount g y < rowTextCount g r)) ∧
      (1 ≤ c ∧ c ≤ g.maxCol ∧
        (∀ y, 1 ≤ y → y ≤ g.maxCol → colTextCount g y ≤ colTextCount g c) ∧
        (∀ y, 1 ≤ y → y < c → colTextCount g y < colTextCount g c)) := by
  have hrowlist : ∃ x xs, (List.range g.maxRow).map (· + 1) = x :: xs := by
    cases hx : (List.range g.maxRow).map (· + 1) with
    | nil =>
      exfalso
      have := congrArg List.length hx
      simp at this
      omega
    | cons x xs => exact ⟨x, xs, rfl⟩
  have hcollist : ∃ x xs, (List.range g.maxCol).map (· + 1) = x :: xs := by
    cases hx : (List.range g.maxCol).map (· + 1) with
    | nil =>
      exfalso
      have := congrArg List.length hx
      simp at this
      omega
    | cons x xs => exact ⟨x, xs, rfl⟩
  obtain ⟨xr, xsr, hxr⟩ := hrowlist
  obtain ⟨xc, xsc, hxc⟩ := hcollist
  have hrsome : ∃ m, pyMaxBy (rowTextCount g) ((List.range g.maxRow).map (· + 1)) = some m := by
    rw [hxr]
    exact ⟨_, rfl⟩
  have hcsome : ∃ m, pyMaxBy (colTextCount g) ((List.range g.maxCol).map (· + 1)) = some m := by
    rw [hxc]
    exact ⟨_, rfl⟩
  obtain ⟨mr, hmr⟩ := hrsome
  obtain ⟨mc, hmc⟩ := hcsome
  constructor
  · rw [detect_key_row_column, hmr, hmc]
    rfl
  · intro r c hrc
    rw [detect_key_row_column, hmr, hmc] at hrc
    have hpair : mr = r ∧ mc = c := by
      have := Option.some.inj hrc
      exact ⟨congrArg Prod.fst this, congrArg Prod.snd this⟩
    obtain ⟨h1, h2⟩ := hpair
    subst h1
    subst h2
    exact ⟨pyMaxBy_range_spec (rowTextCount g) g.maxRow mr hmr,
      pyMaxBy_range_spec (colTextCount g) g.maxCol mc hmc⟩

/-- Witness for C9's amended theorem at the specification's header-grid
scenario: a grid whose row 1 is all text headers and whose row 2 is
numeric selects key row 1. -/
theorem detect_key_row_column_spec_witness :
    detect_key_row_column ⟨[[.str "a", .str "b"], [.int 1, .int 2]]⟩ = some (1, 1) ∧
    (detect_key_row_column ⟨[[.str "a", .str "b"], [.int 1, .int 2]]⟩).isSome = true ∧
    rowTextCount ⟨[[.str "a", .str "b"], [.int 1, .int 2]]⟩ 2 ≤
      rowTextCount ⟨[[.str "a", .str "b"], [.int 1, .int 2]]⟩ 1 ∧
    rowTextCount ⟨[[.str "a", .str "b"], [.int 1, .int 2]]⟩ 1 = 2 ∧
    rowTextCount ⟨[[.str "a", .str "b"], [.int 1, .int 2]]⟩ 2 = 0 := by
  have h := detect_key_row_column_spec ⟨[[.str "a", .str "b"], [.int 1, .int 2]]⟩
    (by decide) (by decide)
  refine ⟨by decide, h.1, ?_, by decide, by decide⟩
  exact ((h.2 1 1 (by decide)).1.2.2.1 2 (by decide) (by decide))

/-- C1: the specification claims `compare_cells` never raises and falls
back to text comparison for unparseable values; but for a numeric-string
first value and an absent second value the code evaluates Python
`-value1` on a `str`, which raises `TypeError`. -/
theorem compare_cells_raises_on_numeric_string :
    compare_cells (.str "5") .none =
      .error "TypeError: bad operand type for unary minus: str" := by decide

/-- C2 counterexample: the claim says `calculate_similarity("","") = 1.0`,
but the code's leading guard `if not text1 or not text2` returns `0.0`
when both keys are empty. -/
theorem calculate_similarity_both_empty :
    calculate_similarity "" "" = 0 ∧ ¬ calculate_similarity "" "" = 1 := by
  constructor
  · decide
  · decide

/-- C2 (amended): reflexivity of `calculate_similarity` holds for every
nonempty key; either key empty (including both) gives `0.0`; for keys
with nonempty word sets the result is the Jaccard index of the
whitespace-token sets. -/
theorem calculate_similarity_spec :
    (∀ k : String, k ≠ "" → calculate_similarity k k = 1) ∧
    calculate_similarity "" "" = 0 ∧
    calculate_similarity "a b" "" = 0 ∧
    (∀ t1 t2 : String, t1 ≠ "" → t2 ≠ "" →
      wordSet t1 ≠ ∅ → wordSet t2 ≠ ∅ →
      calculate_similarity t1 t2 =
        ((wordSet t1 ∩ wordSet t2).card : Rat) /
          ((wordSet t1 ∪ wordSet t2).card : Rat)) := by
  refine ⟨?_, by decide, by decide, ?_⟩
  · intro k hk
    have hcond : ¬ (k = "" ∨ k = "") := by simp [hk]
    by_cases hw : wordSet k = ∅
    · simp [calculate_similarity, hk, hcond, hw]
    · have ha : ¬ (wordSet k = ∅ ∧ wordSet k = ∅) := by tauto
      have hb : ¬ (wordSet k = ∅ ∨ wordSet k = ∅) := by tauto
      simp only [calculate_similarity]
      rw [if_neg hcond, if_neg ha, if_neg hb, Finset.inter_self, Finset.union_self,
        ratDiv_eq]
      have hc : ((wordSet k).card : Rat) ≠ 0 := by
        simpa [Finset.card_eq_zero] using hw
      exact div_self hc
  · intro t1 t2 h1 h2 hw1 hw2
    have hcond : ¬ (t1 = "" ∨ t2 = "") := by simp [h1, h2]
    have ha : ¬ (wordSet t1 = ∅ ∧ wordSet t2 = ∅) := by tauto
    have hb : ¬ (wordSet t1 = ∅ ∨ wordSet t2 = ∅) := by tauto
    simp only [calculate_similarity]
    rw [if_neg hcond, if_neg ha, if_neg hb, ratDiv_eq]

/-- Witness for C2's amended theorem at concrete keys. -/
theorem calculate_similarity_spec_witness :
    calculate_similarity "ab" "ab" = 1 ∧
    calculate_similarity "a b c" "a b d" =
      ((wordSet "a b c" ∩ wordSet "a b d").card : Rat) /
        ((wordSet "a b c" ∪ wordSet "a b d").card : Rat) ∧
    calculate_similarity "a b c" "a b d" = mkRat 1 2 :=
  ⟨calculate_similarity_spec.1 "ab" (by decide),
   calculate_similarity_spec.2.2.2 "a b c" "a b d" (by decide) (by decide)
     (by decide) (by decide),
   by decide⟩

/-- C6: for two values both parseable as numbers (independent of
declared type, including digit strings) the classifier returns the float
difference `value2 - value1`; severity (realised as the fill color of
`get_cell_color`) is match at zero, major above absolute difference 100,
minor otherwise. -/
theorem compare_cells_both_numeric (v1 v2 : Value)
    (h1 : is_numeric v1 = true) (h2 : is_numeric v2 = true) :
    compare_cells v1 v2 =
      .ok (.float ((pyFloat? v2).getD 0 - (pyFloat? v1).getD 0)) ∧
    cellSeverity v1 v2 =
      (if (pyFloat? v2).getD 0 - (pyFloat? v1).getD 0 = 0 then Severity.sevMatch
        else if 100 < |(pyFloat? v2).getD 0 - (pyFloat? v1).getD 0| then Severity.sevMajor
        else Severity.sevMinor) ∧
    get_cell_color (.float ((pyFloat? v2).getD 0 - (pyFloat? v1).getD 0)) =
      some (if (pyFloat? v2).getD 0 - (pyFloat? v1).getD 0 = 0 then Fill.lightGreen
        else if 100 < |(pyFloat? v2).getD 0 - (pyFloat? v1).getD 0| then Fill.lightRed
        else Fill.lightOrange) := by
  have hn1 := pd_isna_false_of_is_numeric h1
  have hn2 := pd_isna_false_of_is_numeric h2
  refine ⟨?_, ?_, ?_⟩
  · simp [compare_cells, hn1, hn2, h1, h2, ratSub_eq]
  · simp [cellSeverity, hn1, hn2, h1, h2, ratSub_eq]
  · simp [get_cell_color, numFill]

/-- Witness for C6 at the specification's three example pairs. -/
theorem compare_cells_both_numeric_witness :
    compare_cells (Value.int 5) (Value.int 5) = .ok (.float 0) ∧
    cellSeverity (Value.int 5) (Value.int 5) = Severity.sevMatch ∧
    compare_cells (Value.float (mkRat 101 10)) (Value.float (mkRat 126 5)) =
      .ok (.float (mkRat 151 10)) ∧
    cellSeverity (Value.float (mkRat 101 10)) (Value.float (mkRat 126 5)) =
      Severity.sevMinor ∧
    compare_cells (Value.int 1) (Value.int 150) = .ok (.float 149) ∧
    cellSeverity (Value.int 1) (Value.int 150) = Severity.sevMajor ∧
    get_cell_color (.float 149) = some Fill.lightRed := by
  have h5 := compare_cells_both_numeric (Value.int 5) (Value.int 5) (by decide) (by decide)
  have h10 := compare_cells_both_numeric (Value.float (mkRat 101 10))
    (Value.float (mkRat 126 5)) (by decide) (by decide)
  have h1 := compare_cells_both_numeric (Value.int 1) (Value.int 150) (by decide) (by decide)
  exact ⟨h5.1.trans (by rw [← ratSub_eq]; decide), by decide,
    h10.1.trans (by rw [← ratSub_eq]; decide), by decide,
    h1.1.trans (by rw [← ratSub_eq]; decide), by decide, by decide⟩

/-- C7 counterexample: the claim says that when only A is absent and
valueB is numeric, the diff is `numeric(valueB)`; but for the numeric
string `"7"` the code returns `value2` unconverted — the string `"7"`,
not the number `7.0`. -/
theorem compare_cells_absent_numeric_string :
    compare_cells .none (.str "7") = .ok (.str "7") ∧
    is_numeric (.str "7") = true ∧
    pyFloat? (.str "7") = some (mkRat 7 1) ∧
    ¬ Value.str "7" = Value.float (mkRat 7 1) := by
  refine ⟨by decide, by decide, by decide, by decide⟩

/-- C7 (amended): both absent gives `(0.0, match)`; only A absent gives
severity one-sided with diff `valueB` itself when numeric (unconverted),
else `str(valueB)`; only B absent gives severity one-sided with diff
Python `-value1` when `value1` is numeric (which negates ints, floats
and bools but raises on numeric strings, cf. C1), else the string
`"{value1} <--> "`. -/
theorem compare_cells_absent_cases (v1 v2 : Value) :
    (pd_isna v1 = true → pd_isna v2 = true →
      compare_cells v1 v2 = .ok (.float 0) ∧
      cellSeverity v1 v2 = Severity.sevMatch) ∧
    (pd_isna v1 = true → pd_isna v2 = false →
      compare_cells v1 v2 =
        .ok (if is_numeric v2 then v2 else .str (toStr v2)) ∧
      cellSeverity v1 v2 = Severity.sevOneSided) ∧
    (pd_isna v1 = false → pd_isna v2 = true →
      compare_cells v1 v2 =
        (if is_numeric v1 then pyNeg v1
          else .ok (.str (toStr v1 ++ " <--> "))) ∧
      cellSeverity v1 v2 = Severity.sevOneSided) := by
  refine ⟨fun h1 h2 => ⟨?_, ?_⟩, fun h1 h2 => ⟨?_, ?_⟩, fun h1 h2 => ⟨?_, ?_⟩⟩
  · simp [compare_cells, h1, h2]
  · simp [cellSeverity, h1, h2]
  · simp [compare_cells, h1, h2]
  · simp [cellSeverity, h1, h2]
  · simp [compare_cells, h1, h2]
  · simp [cellSeverity, h1, h2]

/-- Witness for C7's amended theorem at the specification's examples. -/
theorem compare_cells_absent_cases_witness :
    compare_cells .none (.int 7) = .ok (.int 7) ∧
    cellSeverity .none (.int 7) = Severity.sevOneSided ∧
    compare_cells (.int 3) .none = .ok (.int (-3)) ∧
    cellSeverity (.int 3) .none = Severity.sevOneSided ∧
    compare_cells .none .none = .ok (.float 0) ∧
    cellSeverity .none .none = Severity.sevMatch := by
  have hA := (compare_cells_absent_cases .none (.int 7)).2.1 (by decide) (by decide)
  have hB := (compare_cells_absent_cases (.int 3) .none).2.2 (by decide) (by decide)
  have hC := (compare_cells_absent_cases .none .none).1 (by decide) (by decide)
  exact ⟨hA.1.trans (by decide), hA.2, hB.1.trans (by decide), hB.2, hC.1, hC.2⟩

/-- C8: for two present values with at least one side non-numeric the
classifier compares stringified values: equal gives that string with
severity match; unequal gives `"{str1} <--> {str2}"` with severity
text-mismatch (realised by `get_cell_color` as the red fill, since the
mismatch string contains `"<-->"`). -/
theorem compare_cells_text (v1 v2 : Value)
    (h1 : pd_isna v1 = false) (h2 : pd_isna v2 = false)
    (hnum : (is_numeric v1 && is_numeric v2) = false) :
    compare_cells v1 v2 =
      .ok (.str (if toStr v1 = toStr v2 then toStr v1
        else toStr v1 ++ " <--> " ++ toStr v2)) ∧
    cellSeverity v1 v2 =
      (if toStr v1 = toStr v2 then Severity.sevMatch
        else Severity.sevTextMismatch) ∧
    get_cell_color (.str (toStr v1 ++ " <--> " ++ toStr v2)) =
      some Fill.lightRed := by
  refine ⟨?_, ?_, ?_⟩
  · by_cases hs : toStr v1 = toStr v2 <;>
      simp [compare_cells, h1, h2, hnum, hs]
  · by_cases hs : toStr v1 = toStr v2 <;>
      simp [cellSeverity, h1, h2, hnum, hs]
  · have hlit : ("<-->" : String).data = ['<', '-', '-', '>'] := rfl
    have hdata : (toStr v1 ++ " <--> " ++ toStr v2).data =
        ((toStr v1).data ++ [' ']) ++ ['<', '-', '-', '>'] ++ ([' '] ++ (toStr v2).data) := by
      have harrow : (" <--> " : String).data = [' ', '<', '-', '-', '>', ' '] := rfl
      simp [String.data_append, harrow]
    have key := containsSub_middle ['<', '-', '-', '>']
      ((toStr v1).data ++ [' ']) ([' '] ++ (toStr v2).data)
    simp only [get_cell_color, hlit, hdata, key]
    simp

/-- Witness for C8 at the specification's example pairs. -/
theorem compare_cells_text_witness :
    compare_cells (.str "apple") (.str "apple") = .ok (.str "apple") ∧
    cellSeverity (.str "apple") (.str "apple") = Severity.sevMatch ∧
    compare_cells (.str "banana") (.str "orange") =
      .ok (.str "banana <--> orange") ∧
    cellSeverity (.str "banana") (.str "orange") = Severity.sevTextMismatch ∧
    get_cell_color (.str "banana <--> orange") = some Fill.lightRed := by
  have hA := compare_cells_text (.str "apple") (.str "apple")
    (by decide) (by decide) (by decide)
  have hB := compare_cells_text (.str "banana") (.str "orange")
    (by decide) (by decide) (by decide)
  exact ⟨hA.1.trans (by decide), hA.2.1.trans (by decide),
    hB.1.trans (by decide), hB.2.1.trans (by decide), by decide⟩

end ExcelDiff
